import Mathlib

/-!
Verification of the non-dominated sorting core described by the repository's
specification. The repository's notebook (`src/assets/article.ipynb`) delegates
the ranking to the external library call `plat.nondominated_sort(solutions)`;
the algorithm itself is therefore not part of the repository's sources and is
modelled here from the specification (fast non-dominated sort, spec section 4.1).
Objective values are rationals, with `none` standing for a NaN/undefined value,
whose comparisons are non-ordered as the specification requires.
-/

/-- An objective value: a rational number, or `none` for NaN/undefined.
Comparisons involving `none` are non-ordered (always false), matching
IEEE NaN comparison semantics as made explicit by the specification. -/
abbrev Obj := Option ℚ

/-- Non-ordered less-or-equal on objective values: false when either side is NaN. -/
def objLe : Obj → Obj → Bool
  | some x, some y => x ≤ y
  | _, _ => false

/-- Non-ordered strict less-than on objective values: false when either side is NaN. -/
def objLt : Obj → Obj → Bool
  | some x, some y => x < y
  | _, _ => false

/-- Modelled from the spec: the dominance predicate of section 4.1 (the body of
`platypus.nondominated_sort` is not in the repository sources). Solution `a`
dominates solution `b` iff at every objective index `a` is ≤ `b` and at some
index `a` is strictly < `b`. -/
def dominates (a b : List Obj) : Bool :=
  (a.zip b).all (fun p => objLe p.1 p.2) && (a.zip b).any (fun p => objLt p.1 p.2)

/-- Dimensional consistency check: all objective vectors share one length. -/
def sameDim : List (List Obj) → Bool
  | [] => true
  | v :: rest => rest.all (fun w => w.length == v.length)

/-- Pair each element with its position, starting at index `i`. -/
def indexed : Nat → List α → List (Nat × α)
  | _, [] => []
  | i, a :: l => (i, a) :: indexed (i + 1) l

/-- A solution still to be ranked: its population index and objective vector. -/
abbrev Sol := Nat × List Obj

/-- Whether `s` is dominated by some member of `rem`; this is what the spec's
per-solution domination counter tracks (counter zero iff no dominator remains). -/
def dominatedWithin (rem : List Sol) (s : Sol) : Bool :=
  rem.any (fun t => dominates t.2 s.2)

/-- Modelled from the spec: the front-peeling iteration of section 4.1 steps 2–3.
At each step the current front is the set of remaining solutions whose domination
counter (dominators among the remaining solutions) is zero; its members receive
rank `k` and are removed, and the iteration continues at rank `k + 1`. The fuel
argument bounds the number of peeling steps; the spec asserts `N` steps suffice. -/
def peel : Nat → List Sol → Nat → List (Sol × Nat)
  | 0, _, _ => []
  | Nat.succ fuel, rem, k =>
    if rem.isEmpty then []
    else
      (rem.filter (fun s => ! dominatedWithin rem s)).map (fun s => (s, k))
        ++ peel fuel (rem.filter (fun s => dominatedWithin rem s)) (k + 1)

/-- Modelled from the spec: the rank assignment computed by fast non-dominated
sort on a population of objective vectors, as a list of (solution, rank) pairs. -/
def rankAssignment (objs : List (List Obj)) : List (Sol × Nat) :=
  peel objs.length (indexed 0 objs) 0

/-- A solution: an objective vector plus the mutable rank slot written by the core. -/
structure Solution where
  objectives : List Obj
  rank : Option Nat
deriving DecidableEq, Repr

/-- The single error kind of the specification's error taxonomy. -/
inductive RankError where
  | InvalidInput
deriving DecidableEq, Repr

/-- Look up the rank assigned to population index `i`. -/
def lookupRank (asg : List (Sol × Nat)) (i : Nat) : Option Nat :=
  (asg.find? (fun e => e.1.1 == i)).map (fun e => e.2)

/-- Write the computed ranks back onto the solutions, in population order. -/
def assignRanks (asg : List (Sol × Nat)) : Nat → List Solution → List Solution
  | _, [] => []
  | i, s :: l => Solution.mk s.objectives (lookupRank asg i) :: assignRanks asg (i + 1) l

/-- Modelled from the spec: `rank(population)`, section 4.1. Fails fast with
`InvalidInput` on inconsistent objective dimensions, otherwise returns the
population with every solution's rank field set to its front index. -/
def nondominatedSort (pop : List Solution) : Except RankError (List Solution) :=
  if sameDim (pop.map Solution.objectives) then
    Except.ok (assignRanks (rankAssignment (pop.map Solution.objectives)) 0 pop)
  else
    Except.error RankError.InvalidInput

/-- Modelled from the spec's claim source: the fixed 10-colour qualitative
palette `px.colors.qualitative.Plotly` indexed by front rank in the notebook's
plotting loop. -/
def plotlyPalette : List String :=
  ["#636EFA", "#EF553B", "#00CC96", "#AB63FA", "#FFA15A",
   "#19D3F3", "#FF6692", "#B6E880", "#FF97FF", "#FECB52"]

deriving instance DecidableEq for Except

/-! ### Basic facts about the objective-value comparisons -/

theorem objLe_trans {x y z : Obj} (h1 : objLe x y = true) (h2 : objLe y z = true) :
    objLe x z = true := by
  cases x <;> cases y <;> cases z <;> simp [objLe] at * <;> exact le_trans h1 h2

theorem objLe_objLt_trans {x y z : Obj} (h1 : objLe x y = true) (h2 : objLt y z = true) :
    objLt x z = true := by
  cases x <;> cases y <;> cases z <;> simp [objLe, objLt] at * <;> exact lt_of_le_of_lt h1 h2

theorem objLt_irrefl (x : Obj) : objLt x x = false := by
  cases x <;> simp [objLt]

theorem mem_zip_self {a : List Obj} {p : Obj × Obj} (h : p ∈ a.zip a) : p.1 = p.2 := by
  induction a with
  | nil => simp [List.zip] at h
  | cons x l ih =>
    rcases List.mem_cons.mp h with h | h
    · subst h; rfl
    · exact ih h

/-- No solution dominates itself (strict-inequality clause never fires on equal values). -/
theorem dominates_irrefl (a : List Obj) : dominates a a = false := by
  unfold dominates
  rw [Bool.and_eq_false_iff]
  right
  rw [List.any_eq_false]
  intro p hp
  rw [mem_zip_self hp, objLt_irrefl]
  simp

/-- Index-wise characterisation of the dominance predicate on equal-length vectors. -/
theorem dominates_iff_forall {a b : List Obj} (h : a.length = b.length) :
    dominates a b = true ↔
      ((∀ i : Fin a.length, objLe (a.get i) (b.get (Fin.cast h i)) = true) ∧
       ∃ i : Fin a.length, objLt (a.get i) (b.get (Fin.cast h i)) = true) := by
  have hz : (a.zip b).length = a.length := by
    rw [List.length_zip, h, Nat.min_self]
  unfold dominates
  rw [Bool.and_eq_true, List.all_eq_true, List.any_eq_true]
  constructor
  · rintro ⟨hall, p, hpmem, hplt⟩
    constructor
    · intro i
      have hi : (i : Nat) < (a.zip b).length := by rw [hz]; exact i.isLt
      have hmem : (a.zip b).get ⟨i, hi⟩ ∈ a.zip b := List.get_mem _ _ _
      have hsplit : (a.zip b).get ⟨i, hi⟩ = (a.get i, b.get (Fin.cast h i)) := by
        simp [List.get_eq_getElem, List.getElem_zip]
      have := hall _ hmem
      rw [hsplit] at this
      exact this
    · rcases List.mem_iff_get.mp hpmem with ⟨j, hj⟩
      have hja : (j : Nat) < a.length := by rw [← hz]; exact j.isLt
      refine ⟨⟨j, hja⟩, ?_⟩
      have hsplit : (a.zip b).get j = (a.get ⟨j, hja⟩, b.get (Fin.cast h ⟨j, hja⟩)) := by
        simp [List.get_eq_getElem, List.getElem_zip]
      rw [hj] at hsplit
      have h1 : p.1 = a.get ⟨j, hja⟩ := by rw [hsplit]
      have h2 : p.2 = b.get (Fin.cast h ⟨j, hja⟩) := by rw [hsplit]
      rw [← h1, ← h2]
      exact hplt
  · rintro ⟨hall, i, hlt⟩
    constructor
    · intro p hpmem
      rcases List.mem_iff_get.mp hpmem with ⟨j, hj⟩
      have hja : (j : Nat) < a.length := by rw [← hz]; exact j.isLt
      have hsplit : (a.zip b).get j = (a.get ⟨j, hja⟩, b.get (Fin.cast h ⟨j, hja⟩)) := by
        simp [List.get_eq_getElem, List.getElem_zip]
      rw [← hj, hsplit]
      exact hall ⟨j, hja⟩
    · have hi : (i : Nat) < (a.zip b).length := by rw [hz]; exact i.isLt
      refine ⟨(a.zip b).get ⟨i, hi⟩, List.get_mem _ _ _, ?_⟩
      have hsplit : (a.zip b).get ⟨i, hi⟩ = (a.get i, b.get (Fin.cast h i)) := by
        simp [List.get_eq_getElem, List.getElem_zip]
      rw [hsplit]
      exact hlt

/-- Dominance is transitive on equal-length vectors. -/
theorem dominates_trans {a b c : List Obj} (hab : a.length = b.length)
    (hbc : b.length = c.length) (h1 : dominates a b = true) (h2 : dominates b c = true) :
    dominates a c = true := by
  have hac : a.length = c.length := hab.trans hbc
  rw [dominates_iff_forall hab] at h1
  rw [dominates_iff_forall hbc] at h2
  rw [dominates_iff_forall hac]
  obtain ⟨h1le, _⟩ := h1
  obtain ⟨h2le, j, h2lt⟩ := h2
  constructor
  · intro i
    exact objLe_trans (h1le i) (h2le (Fin.cast hab i))
  · refine ⟨Fin.cast hab.symm j, ?_⟩
    exact objLe_objLt_trans (h1le (Fin.cast hab.symm j)) h2lt

/-! ### Existence of a minimal element under a transitive irreflexive relation -/

theorem exists_minimal_of_trans_irrefl {α : Type} (r : α → α → Prop) :
    ∀ l : List α, l ≠ [] →
      (∀ a ∈ l, ∀ b ∈ l, ∀ c ∈ l, r a b → r b c → r a c) →
      (∀ a ∈ l, ¬ r a a) →
      ∃ a ∈ l, ∀ b ∈ l, ¬ r b a := by
  intro l
  induction l with
  | nil => intro h; exact absurd rfl h
  | cons x xs ih =>
    intro _ htrans hirr
    by_cases hxs : xs = []
    · subst hxs
      refine ⟨x, List.mem_cons_self x [], ?_⟩
      intro b hb hr
      rcases List.mem_cons.mp hb with rfl | hb
      · exact hirr _ (List.mem_cons_self _ _) hr
      · simp at hb
    · obtain ⟨a, ha, hmin⟩ := ih hxs
        (fun a ha b hb c hc =>
          htrans a (List.mem_cons_of_mem _ ha) b (List.mem_cons_of_mem _ hb)
            c (List.mem_cons_of_mem _ hc))
        (fun a ha => hirr a (List.mem_cons_of_mem _ ha))
      by_cases hxa : r x a
      · refine ⟨x, List.mem_cons_self x xs, ?_⟩
        intro b hb hr
        rcases List.mem_cons.mp hb with rfl | hb
        · exact hirr _ (List.mem_cons_self _ _) hr
        · exact hmin b hb
            (htrans b (List.mem_cons_of_mem _ hb) x (List.mem_cons_self x xs)
              a (List.mem_cons_of_mem _ ha) hr hxa)
      · refine ⟨a, List.mem_cons_of_mem _ ha, ?_⟩
        intro b hb hr
        rcases List.mem_cons.mp hb with rfl | hb
        · exact hxa hr
        · exact hmin b hb hr

/-! ### Dimensional consistency invariants -/

/-- All listed solutions have objective vectors of pairwise equal length. -/
def EqDims (l : List Sol) : Prop :=
  ∀ s ∈ l, ∀ t ∈ l, s.2.length = t.2.length

theorem eqDims_filter {l : List Sol} (p : Sol → Bool) (h : EqDims l) : EqDims (l.filter p) :=
  fun s hs t ht => h s (List.mem_of_mem_filter hs) t (List.mem_of_mem_filter ht)

theorem mem_indexed_snd :
    ∀ (l : List (List Obj)) (i : Nat) (s : Sol), s ∈ indexed i l → s.2 ∈ l := by
  intro l
  induction l with
  | nil => intro i s h; simp [indexed] at h
  | cons v rest ih =>
    intro i s h
    rcases List.mem_cons.mp h with rfl | h
    · exact List.mem_cons_self _ _
    · exact List.mem_cons_of_mem _ (ih (i + 1) s h)

theorem sameDim_lengths {objs : List (List Obj)} (h : sameDim objs = true) :
    ∀ v ∈ objs, ∀ w ∈ objs, v.length = w.length := by
  cases objs with
  | nil => intro v hv; simp at hv
  | cons u rest =>
    simp only [sameDim, List.all_eq_true, beq_iff_eq] at h
    have hlen : ∀ x ∈ u :: rest, x.length = u.length := by
      intro x hx
      rcases List.mem_cons.mp hx with rfl | hx
      · rfl
      · exact h x hx
    intro v hv w hw
    rw [hlen v hv, hlen w hw]

theorem eqDims_indexed {objs : List (List Obj)} (h : sameDim objs = true) :
    EqDims (indexed 0 objs) :=
  fun s hs t ht =>
    sameDim_lengths h s.2 (mem_indexed_snd _ _ _ hs) t.2 (mem_indexed_snd _ _ _ ht)

/-! ### Properties of the front-peeling iteration -/

theorem peel_nil : ∀ (fuel k : Nat), peel fuel [] k = [] := by
  intro fuel k
  cases fuel <;> simp [peel]

theorem peel_succ {fuel : Nat} {rem : List Sol} {k : Nat} (h : rem ≠ []) :
    peel (fuel + 1) rem k =
      (rem.filter (fun s => ! dominatedWithin rem s)).map (fun s => (s, k))
        ++ peel fuel (rem.filter (fun s => dominatedWithin rem s)) (k + 1) := by
  simp [peel, h]

/-- Some remaining solution is undominated within the remainder: the current
front is never empty while solutions remain (the acyclicity argument of the
spec's termination step). -/
theorem front_ne_nil {rem : List Sol} (hne : rem ≠ []) (hd : EqDims rem) :
    rem.filter (fun s => ! dominatedWithin rem s) ≠ [] := by
  obtain ⟨a, ha, hmin⟩ := exists_minimal_of_trans_irrefl
    (fun t s => dominates t.2 s.2 = true) rem hne
    (fun a ha b hb c hc h1 h2 =>
      @dominates_trans a.2 b.2 c.2 (hd a ha b hb) (hd b hb c hc) h1 h2)
    (fun a _ h => by
      have h2 : dominates a.2 a.2 = true := h
      rw [dominates_irrefl] at h2
      exact Bool.false_ne_true h2)
  have hdw : dominatedWithin rem a = false := by
    rw [dominatedWithin, List.any_eq_false]
    intro t ht
    exact hmin t ht
  exact List.ne_nil_of_mem (List.mem_filter.mpr ⟨ha, by rw [hdw]; rfl⟩)

theorem front_rest_perm (rem : List Sol) :
    (rem.filter (fun s => ! dominatedWithin rem s)
      ++ rem.filter (fun s => dominatedWithin rem s)).Perm rem := by
  have h2 := List.filter_append_perm (fun s => ! dominatedWithin rem s) rem
  simpa only [Bool.not_not] using h2

theorem front_rest_length (rem : List Sol) :
    (rem.filter (fun s => ! dominatedWithin rem s)).length
      + (rem.filter (fun s => dominatedWithin rem s)).length = rem.length := by
  have h := (front_rest_perm rem).length_eq
  rw [List.length_append] at h
  exact h

theorem rest_length_lt {rem : List Sol} (hne : rem ≠ []) (hd : EqDims rem) :
    (rem.filter (fun s => dominatedWithin rem s)).length < rem.length := by
  have h1 := front_rest_length rem
  have h2 : 0 < (rem.filter (fun s => ! dominatedWithin rem s)).length :=
    List.length_pos.mpr (front_ne_nil hne hd)
  omega

theorem mem_peel :
    ∀ (fuel : Nat) (rem : List Sol) (k : Nat) (e : Sol × Nat),
      e ∈ peel fuel rem k → e.1 ∈ rem ∧ k ≤ e.2 := by
  intro fuel
  induction fuel with
  | zero => intro rem k e h; simp [peel] at h
  | succ fuel ih =>
    intro rem k e h
    by_cases hrem : rem = []
    · subst hrem; rw [peel_nil] at h; simp at h
    · rw [peel_succ hrem] at h
      rcases List.mem_append.mp h with h | h
      · rcases List.mem_map.mp h with ⟨s, hs, rfl⟩
        exact ⟨List.mem_of_mem_filter hs, le_refl k⟩
      · obtain ⟨h1, h2⟩ := ih _ _ _ h
        exact ⟨List.mem_of_mem_filter h1, le_trans (Nat.le_succ k) h2⟩

/-- With fuel at least the number of remaining solutions, peeling assigns a rank
to every remaining solution exactly once (the assignment's solutions are a
permutation of the remainder). -/
theorem peel_perm :
    ∀ (fuel : Nat) (rem : List Sol) (k : Nat), rem.length ≤ fuel → EqDims rem →
      ((peel fuel rem k).map Prod.fst).Perm rem := by
  intro fuel
  induction fuel with
  | zero =>
    intro rem k hle _
    have : rem = [] := List.eq_nil_of_length_eq_zero (Nat.le_zero.mp hle)
    subst this
    simp [peel]
  | succ fuel ih =>
    intro rem k hle hd
    by_cases hrem : rem = []
    · subst hrem; rw [peel_nil]; simp
    · rw [peel_succ hrem, List.map_append]
      have hmapfst :
          ((rem.filter (fun s => ! dominatedWithin rem s)).map (fun s => (s, k))).map Prod.fst
            = rem.filter (fun s => ! dominatedWithin rem s) := by
        rw [List.map_map]; exact List.map_id _
      rw [hmapfst]
      have hrest : (rem.filter (fun s => dominatedWithin rem s)).length ≤ fuel := by
        have := rest_length_lt hrem hd; omega
      have ihp := ih _ (k + 1) hrest (eqDims_filter _ hd)
      exact (List.Perm.append_left _ ihp).trans (front_rest_perm rem)

theorem indexed_length {α : Type} : ∀ (l : List α) (i : Nat), (indexed i l).length = l.length := by
  intro l
  induction l with
  | nil => intro i; rfl
  | cons a l ih => intro i; simp [indexed, ih]

/-- The entries placed at the current rank are exactly the undominated remainder. -/
theorem mem_peel_rank_eq {fuel : Nat} {rem : List Sol} {k : Nat} {s : Sol} (hne : rem ≠ []) :
    (s, k) ∈ peel (fuel + 1) rem k ↔ s ∈ rem ∧ dominatedWithin rem s = false := by
  rw [peel_succ hne]
  constructor
  · intro h
    rcases List.mem_append.mp h with h | h
    · rcases List.mem_map.mp h with ⟨t, ht, hts⟩
      have hts2 : t = s := congrArg Prod.fst hts
      subst hts2
      obtain ⟨h1, h2⟩ := List.mem_filter.mp ht
      exact ⟨h1, by simpa using h2⟩
    · have h2 := (mem_peel _ _ _ _ h).2
      simp at h2
  · intro h
    obtain ⟨h1, h2⟩ := h
    apply List.mem_append.mpr
    left
    apply List.mem_map.mpr
    exact ⟨s, List.mem_filter.mpr ⟨h1, by rw [h2]; rfl⟩, rfl⟩

/-- The topological-layering invariant: a solution ranked no later than another
is never dominated by it. -/
theorem peel_no_dominate :
    ∀ (fuel : Nat) (rem : List Sol) (k : Nat), EqDims rem →
      ∀ e1 e2 : Sol × Nat, e1 ∈ peel fuel rem k → e2 ∈ peel fuel rem k →
        e1.2 ≤ e2.2 → dominates e2.1.2 e1.1.2 = false := by
  intro fuel
  induction fuel with
  | zero => intro rem k _ e1 e2 h1; simp [peel] at h1
  | succ fuel ih =>
    intro rem k hd e1 e2 h1 h2 hle
    by_cases hrem : rem = []
    · subst hrem; rw [peel_nil] at h1; simp at h1
    · rw [peel_succ hrem] at h1 h2
      rcases List.mem_append.mp h1 with h1 | h1
      · rcases List.mem_map.mp h1 with ⟨s, hs, rfl⟩
        obtain ⟨hsrem, hsf⟩ := List.mem_filter.mp hs
        have hdw : dominatedWithin rem s = false := by simpa using hsf
        rw [dominatedWithin, List.any_eq_false] at hdw
        have he2 : e2.1 ∈ rem := by
          rcases List.mem_append.mp h2 with h2 | h2
          · rcases List.mem_map.mp h2 with ⟨t, ht, rfl⟩
            exact List.mem_of_mem_filter ht
          · exact List.mem_of_mem_filter (mem_peel _ _ _ _ h2).1
        have hnd := hdw e2.1 he2
        cases hc : dominates e2.1.2 s.2 with
        | false => rfl
        | true => exact absurd hc hnd
      · have hk1 := (mem_peel _ _ _ _ h1).2
        rcases List.mem_append.mp h2 with h2 | h2
        · rcases List.mem_map.mp h2 with ⟨t, ht, rfl⟩
          have hle2 : e1.2 ≤ k := hle
          omega
        · exact ih _ _ (eqDims_filter _ hd) e1 e2 h1 h2 hle

/-- Ranks are contiguous: below any assigned rank every rank from the starting
index up is also assigned. -/
theorem peel_rank_downward :
    ∀ (fuel : Nat) (rem : List Sol) (k : Nat), EqDims rem →
      ∀ e ∈ peel fuel rem k, ∀ r : Nat, k ≤ r → r ≤ e.2 →
        ∃ e2, e2 ∈ peel fuel rem k ∧ e2.2 = r := by
  intro fuel
  induction fuel with
  | zero => intro rem k _ e he; simp [peel] at he
  | succ fuel ih =>
    intro rem k hd e he r hkr hre
    by_cases hrem : rem = []
    · subst hrem; rw [peel_nil] at he; simp at he
    · rw [peel_succ hrem] at he ⊢
      rcases List.mem_append.mp he with he | he
      · rcases List.mem_map.mp he with ⟨s, hs, rfl⟩
        have hrk : r = k := le_antisymm hre hkr
        subst hrk
        exact ⟨(s, r), List.mem_append.mpr (Or.inl (List.mem_map.mpr ⟨s, hs, rfl⟩)), rfl⟩
      · rcases Nat.eq_or_lt_of_le hkr with rfl | hkr2
        · have hfne := front_ne_nil hrem hd
          obtain ⟨s, hs⟩ := List.exists_mem_of_ne_nil _ hfne
          exact ⟨(s, k), List.mem_append.mpr (Or.inl (List.mem_map.mpr ⟨s, hs, rfl⟩)), rfl⟩
        · obtain ⟨e2, he2, hr⟩ := ih _ _ (eqDims_filter _ hd) e he r hkr2 hre
          exact ⟨e2, List.mem_append.mpr (Or.inr he2), hr⟩

/-- Every assigned rank is below the starting index plus the number of
remaining solutions: at most `N` peeling steps occur. -/
theorem peel_rank_lt :
    ∀ (fuel : Nat) (rem : List Sol) (k : Nat), EqDims rem →
      ∀ e ∈ peel fuel rem k, e.2 < k + rem.length := by
  intro fuel
  induction fuel with
  | zero => intro rem k _ e he; simp [peel] at he
  | succ fuel ih =>
    intro rem k hd e he
    by_cases hrem : rem = []
    · subst hrem; rw [peel_nil] at he; simp at he
    · rw [peel_succ hrem] at he
      have hlen := front_rest_length rem
      have hfpos : 0 < (rem.filter (fun s => ! dominatedWithin rem s)).length :=
        List.length_pos.mpr (front_ne_nil hrem hd)
      rcases List.mem_append.mp he with he | he
      · rcases List.mem_map.mp he with ⟨s, hs, rfl⟩
        show k < k + rem.length
        omega
      · have hih := ih _ _ (eqDims_filter _ hd) e he
        omega

/-- Any fuel at least the number of remaining solutions produces the same
result: the iteration has genuinely terminated by then. -/
theorem peel_fuel_ext :
    ∀ (f1 f2 : Nat) (rem : List Sol) (k : Nat),
      rem.length ≤ f1 → rem.length ≤ f2 → EqDims rem →
      peel f1 rem k = peel f2 rem k := by
  intro f1
  induction f1 with
  | zero =>
    intro f2 rem k h1 _ _
    have : rem = [] := List.eq_nil_of_length_eq_zero (Nat.le_zero.mp h1)
    subst this
    rw [peel_nil, peel_nil]
  | succ f1 ih =>
    intro f2 rem k h1 h2 hd
    by_cases hrem : rem = []
    · subst hrem; rw [peel_nil, peel_nil]
    · have hpos : 0 < rem.length := List.length_pos.mpr hrem
      cases f2 with
      | zero => omega
      | succ f2 =>
        rw [peel_succ hrem, peel_succ hrem]
        congr 1
        have hlt := rest_length_lt hrem hd
        exact ih f2 _ (k + 1) (by omega) (by omega) (eqDims_filter _ hd)

/-! ### Writing the ranks back onto the population -/

theorem assignRanks_length (asg : List (Sol × Nat)) :
    ∀ (i : Nat) (l : List Solution), (assignRanks asg i l).length = l.length := by
  intro i l
  induction l generalizing i with
  | nil => rfl
  | cons s l ih => simp [assignRanks, ih]

theorem assignRanks_objectives (asg : List (Sol × Nat)) :
    ∀ (i : Nat) (l : List Solution),
      (assignRanks asg i l).map Solution.objectives = l.map Solution.objectives := by
  intro i l
  induction l generalizing i with
  | nil => rfl
  | cons s l ih => simp [assignRanks, ih]

theorem assignRanks_idem (asg : List (Sol × Nat)) :
    ∀ (i : Nat) (l : List Solution),
      assignRanks asg i (assignRanks asg i l) = assignRanks asg i l := by
  intro i l
  induction l generalizing i with
  | nil => rfl
  | cons s l ih => simp [assignRanks, ih]

theorem assignRanks_rank_mem (asg : List (Sol × Nat)) :
    ∀ (i : Nat) (l : List Solution) (s : Solution), s ∈ assignRanks asg i l →
      ∃ j, i ≤ j ∧ j < i + l.length ∧ s.rank = lookupRank asg j := by
  intro i l
  induction l generalizing i with
  | nil => intro s h; simp [assignRanks] at h
  | cons t l ih =>
    intro s h
    rcases List.mem_cons.mp h with rfl | h
    · exact ⟨i, le_refl i, by simp, rfl⟩
    · obtain ⟨j, h1, h2, h3⟩ := ih (i + 1) s h
      refine ⟨j, by omega, ?_, h3⟩
      simp only [List.length_cons]
      omega

theorem indexed_get_mem {α : Type} :
    ∀ (l : List α) (i j : Nat) (hj : j < l.length),
      (i + j, l.get ⟨j, hj⟩) ∈ indexed i l := by
  intro l
  induction l with
  | nil => intro i j hj; simp at hj
  | cons a l ih =>
    intro i j hj
    cases j with
    | zero => simp [indexed]
    | succ j =>
      apply List.mem_cons_of_mem
      have harr : i + (j + 1) = (i + 1) + j := by omega
      have hj2 : j < l.length := by simpa using hj
      have := ih (i + 1) j hj2
      rw [harr]
      exact this

/-- Every index below the population size receives a rank in the assignment. -/
theorem lookupRank_isSome {objs : List (List Obj)} (h : sameDim objs = true)
    {j : Nat} (hj : j < objs.length) :
    ∃ r, lookupRank (rankAssignment objs) j = some r := by
  have hperm := peel_perm objs.length (indexed 0 objs) 0
    (by rw [indexed_length]) (eqDims_indexed h)
  have hmem : (j, objs.get ⟨j, hj⟩) ∈ indexed 0 objs := by
    have := indexed_get_mem objs 0 j hj
    simpa using this
  have hmem2 : (j, objs.get ⟨j, hj⟩) ∈ (rankAssignment objs).map Prod.fst :=
    hperm.mem_iff.mpr hmem
  rcases List.mem_map.mp hmem2 with ⟨e, he, hfst⟩
  have hsome : ((rankAssignment objs).find? (fun e => e.1.1 == j)).isSome :=
    List.find?_isSome.mpr ⟨e, he, by rw [hfst]; exact beq_self_eq_true j⟩
  obtain ⟨e2, he2⟩ := Option.isSome_iff_exists.mp hsome
  exact ⟨e2.2, by rw [lookupRank, he2]; rfl⟩

/-! ### NaN behaviour and the predicate restricted to ordinary rationals -/

theorem objLe_none_left (y : Obj) : objLe none y = false := by cases y <;> rfl

theorem objLe_none_right (x : Obj) : objLe x none = false := by cases x <;> rfl

/-- A pair with a NaN objective on either side is never ordered by dominance. -/
theorem dominates_false_of_none {a b : List Obj} (h : a.length = b.length)
    (ha : none ∈ a ∨ none ∈ b) : dominates a b = false := by
  cases hc : dominates a b with
  | false => rfl
  | true =>
    exfalso
    rw [dominates_iff_forall h] at hc
    obtain ⟨hall, _⟩ := hc
    rcases ha with ha | hb
    · rcases List.mem_iff_get.mp ha with ⟨i, hi⟩
      have h2 := hall i
      rw [hi, objLe_none_left] at h2
      exact Bool.false_ne_true h2
    · rcases List.mem_iff_get.mp hb with ⟨i, hi⟩
      have h2 : objLe (a.get (Fin.cast h.symm i)) (b.get i) = true :=
        hall (Fin.cast h.symm i)
      rw [hi, objLe_none_right] at h2
      exact Bool.false_ne_true h2

theorem get_map_some (a : List ℚ) (i : Fin (a.map some).length) :
    (a.map some).get i = some (a.get (Fin.cast (List.length_map a some) i)) := by
  simp [List.get_eq_getElem, List.getElem_map]

/-- On NaN-free vectors of equal length, dominance is exactly the spec's
"everywhere ≤ and somewhere <" condition on the rational values. -/
theorem dominates_map_some_iff (a b : List ℚ) (h : a.length = b.length) :
    dominates (a.map some) (b.map some) = true ↔
      ((∀ i : Fin a.length, a.get i ≤ b.get (Fin.cast h i)) ∧
       ∃ i : Fin a.length, a.get i < b.get (Fin.cast h i)) := by
  have hma : (a.map some).length = a.length := List.length_map a some
  have hlen : (a.map some).length = (b.map some).length := by
    rw [List.length_map, List.length_map, h]
  rw [dominates_iff_forall hlen]
  constructor
  · rintro ⟨h1, i, h2⟩
    constructor
    · intro i0
      have hh := h1 (Fin.cast hma.symm i0)
      rw [get_map_some, get_map_some] at hh
      have hh2 : objLe (some (a.get i0)) (some (b.get (Fin.cast h i0))) = true := hh
      simpa [objLe] using hh2
    · refine ⟨Fin.cast hma i, ?_⟩
      rw [get_map_some, get_map_some] at h2
      have h22 : objLt (some (a.get (Fin.cast hma i)))
          (some (b.get (Fin.cast h (Fin.cast hma i)))) = true := h2
      simpa [objLt] using h22
  · rintro ⟨h1, i, h2⟩
    constructor
    · intro i0
      rw [get_map_some, get_map_some]
      have := h1 (Fin.cast hma i0)
      show objLe (some (a.get (Fin.cast hma i0)))
        (some (b.get (Fin.cast h (Fin.cast hma i0)))) = true
      simpa [objLe] using this
    · refine ⟨Fin.cast hma.symm i, ?_⟩
      rw [get_map_some, get_map_some]
      show objLt (some (a.get i)) (some (b.get (Fin.cast h i))) = true
      simpa [objLt] using h2

/-! ### The claims -/

/-- C1: for every dimensionally consistent population, the rank assignment
gives every solution exactly one non-negative rank (the assignment's solutions
are a permutation of the indexed population), and every rank below an assigned
rank is itself assigned, so the ranks used are contiguous from 0. -/
theorem c1_ranks_total_and_contiguous (objs : List (List Obj))
    (h : sameDim objs = true) :
    ((rankAssignment objs).map Prod.fst).Perm (indexed 0 objs) ∧
      (∀ e ∈ rankAssignment objs, ∀ r : Nat, r ≤ e.2 →
        ∃ e2, e2 ∈ rankAssignment objs ∧ e2.2 = r) := by
  constructor
  · exact peel_perm _ _ _ (by rw [indexed_length]) (eqDims_indexed h)
  · intro e he r hr
    exact peel_rank_downward _ _ _ (eqDims_indexed h) e he r (Nat.zero_le r) hr

theorem c1_witness :
    sameDim [[some (1 : ℚ)], [some 2]] = true ∧
      (((rankAssignment [[some (1 : ℚ)], [some 2]]).map Prod.fst).Perm
          (indexed 0 [[some (1 : ℚ)], [some 2]]) ∧
        (∀ e ∈ rankAssignment [[some (1 : ℚ)], [some 2]], ∀ r : Nat, r ≤ e.2 →
          ∃ e2, e2 ∈ rankAssignment [[some (1 : ℚ)], [some 2]] ∧ e2.2 = r)) :=
  ⟨by decide, c1_ranks_total_and_contiguous _ (by decide)⟩

/-- C2: the dominance predicate holds iff every objective of A is ≤ B's and
some objective of A is strictly < B's; no vector dominates itself (so
byte-identical vectors are mutually non-dominated); the duplicate population
[(2,2),(2,2),(2,2)] is ranked all zero. -/
theorem c2_dominance_predicate (a b : List ℚ) (h : a.length = b.length) :
    (dominates (a.map some) (b.map some) = true ↔
      ((∀ i : Fin a.length, a.get i ≤ b.get (Fin.cast h i)) ∧
        ∃ i : Fin a.length, a.get i < b.get (Fin.cast h i))) ∧
    (∀ v : List Obj, dominates v v = false) ∧
    rankAssignment [[some 2, some 2], [some 2, some 2], [some 2, some 2]]
      = [((0, [some 2, some 2]), 0), ((1, [some 2, some 2]), 0),
         ((2, [some 2, some 2]), 0)] :=
  ⟨dominates_map_some_iff a b h, dominates_irrefl, by decide⟩

theorem c2_witness :
    ([(1 : ℚ), 3].length = [(2 : ℚ), 3].length) ∧
      ((dominates ([(1 : ℚ), 3].map some) ([(2 : ℚ), 3].map some) = true ↔
        ((∀ i : Fin [(1 : ℚ), 3].length,
            [(1 : ℚ), 3].get i ≤ [(2 : ℚ), 3].get (Fin.cast (by decide) i)) ∧
          ∃ i : Fin [(1 : ℚ), 3].length,
            [(1 : ℚ), 3].get i < [(2 : ℚ), 3].get (Fin.cast (by decide) i))) ∧
      (∀ v : List Obj, dominates v v = false) ∧
      rankAssignment [[some 2, some 2], [some 2, some 2], [some 2, some 2]]
        = [((0, [some 2, some 2]), 0), ((1, [some 2, some 2]), 0),
           ((2, [some 2, some 2]), 0)]) :=
  ⟨by decide, c2_dominance_predicate [(1 : ℚ), 3] [(2 : ℚ), 3] (by decide)⟩

/-- C3: the computed ranks are a topological layering of the domination order:
within one front neither solution dominates the other, and a solution of a
strictly higher rank never dominates one of a lower rank. -/
theorem c3_topological_layering (objs : List (List Obj)) (h : sameDim objs = true) :
    ∀ e1 ∈ rankAssignment objs, ∀ e2 ∈ rankAssignment objs,
      (e1.2 = e2.2 →
        dominates e1.1.2 e2.1.2 = false ∧ dominates e2.1.2 e1.1.2 = false) ∧
      (e1.2 < e2.2 → dominates e2.1.2 e1.1.2 = false) := by
  intro e1 h1 e2 h2
  constructor
  · intro heq
    exact ⟨peel_no_dominate _ _ _ (eqDims_indexed h) e2 e1 h2 h1 (le_of_eq heq.symm),
           peel_no_dominate _ _ _ (eqDims_indexed h) e1 e2 h1 h2 (le_of_eq heq)⟩
  · intro hlt
    exact peel_no_dominate _ _ _ (eqDims_indexed h) e1 e2 h1 h2 (le_of_lt hlt)

theorem c3_witness :
    sameDim [[some (1 : ℚ)], [some 2]] = true ∧
      (∀ e1 ∈ rankAssignment [[some (1 : ℚ)], [some 2]],
        ∀ e2 ∈ rankAssignment [[some (1 : ℚ)], [some 2]],
          (e1.2 = e2.2 →
            dominates e1.1.2 e2.1.2 = false ∧ dominates e2.1.2 e1.1.2 = false) ∧
          (e1.2 < e2.2 → dominates e2.1.2 e1.1.2 = false)) :=
  ⟨by decide, c3_topological_layering _ (by decide)⟩

/-- C4: front 0 is exactly the set of solutions dominated by nobody in the
population, and the two concrete scenarios: the diagonal population has ranks
0,0,0,0,1 and the strictly ordered chain has ranks 0,1,2. -/
theorem c4_front_zero_pareto (objs : List (List Obj)) (h : sameDim objs = true) :
    (∀ s ∈ indexed 0 objs,
      ((s, 0) ∈ rankAssignment objs ↔
        ∀ t ∈ indexed 0 objs, dominates t.2 s.2 = false)) ∧
    rankAssignment [[some 1, some 4], [some 2, some 3], [some 3, some 2],
        [some 4, some 1], [some 5, some 5]]
      = [((0, [some 1, some 4]), 0), ((1, [some 2, some 3]), 0),
         ((2, [some 3, some 2]), 0), ((3, [some 4, some 1]), 0),
         ((4, [some 5, some 5]), 1)] ∧
    rankAssignment [[some 1, some 1], [some 2, some 2], [some 3, some 3]]
      = [((0, [some 1, some 1]), 0), ((1, [some 2, some 2]), 1),
         ((2, [some 3, some 3]), 2)] := by
  refine ⟨?_, by decide, by decide⟩
  intro s hs
  have hne : indexed 0 objs ≠ [] := List.ne_nil_of_mem hs
  have hlen : objs.length ≠ 0 := by
    intro h0
    have h00 : objs = [] := List.eq_nil_of_length_eq_zero h0
    subst h00
    exact hne rfl
  obtain ⟨n, hn⟩ := Nat.exists_eq_succ_of_ne_zero hlen
  rw [rankAssignment, hn, mem_peel_rank_eq hne]
  constructor
  · rintro ⟨_, hdw⟩
    rw [dominatedWithin, List.any_eq_false] at hdw
    intro t ht
    have h3 := hdw t ht
    cases hc : dominates t.2 s.2 with
    | false => rfl
    | true => exact absurd hc h3
  · intro hall
    refine ⟨hs, ?_⟩
    rw [dominatedWithin, List.any_eq_false]
    intro t ht
    rw [hall t ht]
    simp

theorem c4_witness :
    sameDim [[some (1 : ℚ)], [some 2]] = true ∧
      ((∀ s ∈ indexed 0 [[some (1 : ℚ)], [some 2]],
        ((s, 0) ∈ rankAssignment [[some (1 : ℚ)], [some 2]] ↔
          ∀ t ∈ indexed 0 [[some (1 : ℚ)], [some 2]], dominates t.2 s.2 = false)) ∧
      rankAssignment [[some 1, some 4], [some 2, some 3], [some 3, some 2],
          [some 4, some 1], [some 5, some 5]]
        = [((0, [some 1, some 4]), 0), ((1, [some 2, some 3]), 0),
           ((2, [some 3, some 2]), 0), ((3, [some 4, some 1]), 0),
           ((4, [some 5, some 5]), 1)] ∧
      rankAssignment [[some 1, some 1], [some 2, some 2], [some 3, some 3]]
        = [((0, [some 1, some 1]), 0), ((1, [some 2, some 2]), 1),
           ((2, [some 3, some 3]), 2)]) :=
  ⟨by decide, c4_front_zero_pareto _ (by decide)⟩

/-- C5: inconsistent objective dimensions fail with the single error kind
`InvalidInput` and nothing else; an error carries no ranked population at all
(the input is untouched), and on success every solution is ranked. -/
theorem c5_single_error_kind (pop : List Solution) :
    (sameDim (pop.map Solution.objectives) = false ↔
      nondominatedSort pop = Except.error RankError.InvalidInput) ∧
    (∀ e, nondominatedSort pop = Except.error e → e = RankError.InvalidInput) ∧
    (∀ out, nondominatedSort pop = Except.ok out →
      out.length = pop.length ∧ ∀ s ∈ out, ∃ r, s.rank = some r) := by
  refine ⟨⟨?_, ?_⟩, ?_, ?_⟩
  · intro hf
    rw [nondominatedSort, hf]
    simp
  · intro herr
    by_cases hc : sameDim (pop.map Solution.objectives) = true
    · rw [nondominatedSort, hc] at herr
      simp at herr
    · simp only [Bool.not_eq_true] at hc
      exact hc
  · intro e he
    cases e
    rfl
  · intro out hout
    by_cases hc : sameDim (pop.map Solution.objectives) = true
    · rw [nondominatedSort, hc] at hout
      rw [if_pos rfl, Except.ok.injEq] at hout
      subst hout
      constructor
      · exact assignRanks_length _ _ _
      · intro s hsmem
        obtain ⟨j, hj1, hj2, hj3⟩ := assignRanks_rank_mem _ 0 pop s hsmem
        have hjlen : j < (pop.map Solution.objectives).length := by
          rw [List.length_map]
          omega
        obtain ⟨r, hr⟩ := lookupRank_isSome hc hjlen
        exact ⟨r, by rw [hj3, hr]⟩
    · rw [nondominatedSort] at hout
      simp only [Bool.not_eq_true] at hc
      rw [hc] at hout
      simp at hout

/-- C6: a NaN objective on either side makes the pair mutually non-dominated,
and the population [(1,1),(NaN,2)] gets both solutions at rank 0. -/
theorem c6_nan_non_ordered (a b : List Obj) (h : a.length = b.length)
    (hnan : none ∈ a ∨ none ∈ b) :
    (dominates a b = false ∧ dominates b a = false) ∧
    rankAssignment [[some 1, some 1], [none, some 2]]
      = [((0, [some 1, some 1]), 0), ((1, [none, some 2]), 0)] :=
  ⟨⟨dominates_false_of_none h hnan,
    dominates_false_of_none h.symm hnan.symm⟩, by decide⟩

theorem c6_witness :
    (([none] : List Obj).length = ([some 0] : List Obj).length ∧
      (none ∈ ([none] : List Obj) ∨ none ∈ ([some 0] : List Obj))) ∧
    ((dominates ([none] : List Obj) ([some 0] : List Obj) = false ∧
      dominates ([some 0] : List Obj) ([none] : List Obj) = false) ∧
     rankAssignment [[some 1, some 1], [none, some 2]]
       = [((0, [some 1, some 1]), 0), ((1, [none, some 2]), 0)]) :=
  ⟨⟨by decide, Or.inl (by decide)⟩,
    c6_nan_non_ordered _ _ (by decide) (Or.inl (by decide))⟩

/-- C7: the empty population succeeds with no fronts; a singleton population
always gets rank 0; an all-NaN population is valid and fully ranked at 0. -/
theorem c7_degenerate_inputs :
    nondominatedSort [] = Except.ok [] ∧
    (∀ s : Solution, nondominatedSort [s] = Except.ok [Solution.mk s.objectives (some 0)]) ∧
    nondominatedSort [Solution.mk [none, none] none, Solution.mk [none, none] none]
      = Except.ok [Solution.mk [none, none] (some 0), Solution.mk [none, none] (some 0)] := by
  refine ⟨by decide, ?_, by decide⟩
  intro s
  have h1 : dominates s.objectives s.objectives = false := dominates_irrefl _
  simp [nondominatedSort, sameDim, rankAssignment, indexed, peel, dominatedWithin,
    h1, assignRanks, lookupRank]

/-- C8: re-ranking an already-ranked population returns it unchanged, so the
front partition is identical. -/
theorem c8_idempotent (pop pop2 : List Solution)
    (h : nondominatedSort pop = Except.ok pop2) :
    nondominatedSort pop2 = Except.ok pop2 := by
  by_cases hc : sameDim (pop.map Solution.objectives) = true
  · rw [nondominatedSort, hc] at h
    rw [if_pos rfl, Except.ok.injEq] at h
    have hobj : pop2.map Solution.objectives = pop.map Solution.objectives := by
      rw [← h]
      exact assignRanks_objectives _ _ _
    rw [nondominatedSort, hobj, hc, if_pos rfl, Except.ok.injEq, ← h]
    exact assignRanks_idem _ _ _
  · rw [nondominatedSort] at h
    simp only [Bool.not_eq_true] at hc
    rw [hc] at h
    simp at h

theorem c8_witness :
    nondominatedSort [Solution.mk [some 1] none, Solution.mk [some 2] none]
        = Except.ok [Solution.mk [some 1] (some 0), Solution.mk [some 2] (some 1)] ∧
      nondominatedSort [Solution.mk [some 1] (some 0), Solution.mk [some 2] (some 1)]
        = Except.ok [Solution.mk [some 1] (some 0), Solution.mk [some 2] (some 1)] :=
  ⟨by decide,
    c8_idempotent [Solution.mk [some 1] none, Solution.mk [some 2] none] _ (by decide)⟩

/-- C9: dominance is a strict partial order (irreflexive and transitive, hence
acyclic), every assigned rank is below the population size (at most N peeling
steps), and any fuel of at least N computes the same, terminated, result. -/
theorem c9_termination_strict_partial_order (objs : List (List Obj))
    (h : sameDim objs = true) :
    (∀ v : List Obj, dominates v v = false) ∧
    (∀ a b c : List Obj, a.length = b.length → b.length = c.length →
      dominates a b = true → dominates b c = true → dominates a c = true) ∧
    (∀ e ∈ rankAssignment objs, e.2 < objs.length) ∧
    (∀ fuel, objs.length ≤ fuel →
      peel fuel (indexed 0 objs) 0 = rankAssignment objs) := by
  refine ⟨dominates_irrefl, fun a b c hab hbc => dominates_trans hab hbc, ?_, ?_⟩
  · intro e he
    have h2 := peel_rank_lt _ _ _ (eqDims_indexed h) e he
    rw [indexed_length] at h2
    simpa using h2
  · intro fuel hf
    exact peel_fuel_ext fuel objs.length _ 0
      (by simp [indexed_length, hf]) (by simp [indexed_length]) (eqDims_indexed h)

theorem c9_witness :
    sameDim [[some (1 : ℚ)], [some 2]] = true ∧
      ((∀ v : List Obj, dominates v v = false) ∧
      (∀ a b c : List Obj, a.length = b.length → b.length = c.length →
        dominates a b = true → dominates b c = true → dominates a c = true) ∧
      (∀ e ∈ rankAssignment [[some (1 : ℚ)], [some 2]],
        e.2 < ([[some (1 : ℚ)], [some 2]] : List (List Obj)).length) ∧
      (∀ fuel, ([[some (1 : ℚ)], [some 2]] : List (List Obj)).length ≤ fuel →
        peel fuel (indexed 0 [[some (1 : ℚ)], [some 2]]) 0
          = rankAssignment [[some (1 : ℚ)], [some 2]])) :=
  ⟨by decide, c9_termination_strict_partial_order _ (by decide)⟩

/-- C10: the notebook's per-front colour lookup is in bounds precisely when
every front rank is at most 9 (the palette has 10 colours), and there is a
dimensionally valid population whose ranking reaches rank 10, where the
palette lookup is out of range. -/
theorem c10_palette_indexing :
    plotlyPalette.length = 10 ∧
    (∀ fronts : List Nat, (∀ f ∈ fronts, f ≤ 9) →
      ∀ f ∈ fronts, (plotlyPalette.get? f).isSome = true) ∧
    (∃ objs : List (List Obj), sameDim objs = true ∧
      ∃ e, e ∈ rankAssignment objs ∧ plotlyPalette.get? e.2 = none) := by
  refine ⟨by decide, ?_, ?_⟩
  · intro fronts hall f hf
    have h9 := hall f hf
    have h10 : plotlyPalette.length = 10 := by decide
    have hlt : f < plotlyPalette.length := by omega
    simp [List.get?_eq_getElem?, hlt]
  · exact ⟨[[some 0], [some 1], [some 2], [some 3], [some 4], [some 5], [some 6],
      [some 7], [some 8], [some 9], [some 10]],
      by decide, ((10, [some 10]), 10), by decide, by decide⟩
